import Mathlib

/-!
Verification development for the `ig-content-intelligence` repository
(`ig_scrape_profile.py`, `ig_scrape_trends_v2.py`, `ig_classify_posts_basic.py`).

The Python sources are shallowly embedded: pure helpers become Lean functions
on `List Char` / `String`, Python `int` becomes `Int`/`Nat`, Python `float`
arithmetic on the small decimal values handled by the scrapers is modelled by
exact rational arithmetic (`ℚ`), fallible parses return `Option`.
Regular-expression substitution (`re.sub` / `re.search`) is embedded by a
small matcher covering exactly the constructs used by the source patterns:
case-insensitive literals, `.`, the classes `[0-9]`, `[A-Za-z0-9_.]`,
`[\d.,]`, `\s`, and the quantifiers `?`, `*`, `+`, with Python's
leftmost-greedy backtracking semantics.
-/

namespace IG

/-- Python's `\s` class (and the default `str.strip()` class), restricted to
the ASCII whitespace characters. -/
def isWsChar (c : Char) : Bool :=
  c == ' ' || c == '\t' || c == '\n' || c == '\r' || c == '\x0b' || c == '\x0c'

/-- Remove a trailing run of whitespace characters. -/
def dropTrailWs : List Char → List Char
  | [] => []
  | c :: rest =>
    let r := dropTrailWs rest
    if r.isEmpty && isWsChar c then [] else c :: r

/-- Python `str.strip()`: drop leading and trailing whitespace. -/
def pyStripChars (cs : List Char) : List Char :=
  dropTrailWs (cs.dropWhile isWsChar)

/-- Atoms of the regular expressions used by the scrapers. -/
inductive RAtom where
  /-- a literal character, compared case-insensitively (`re.IGNORECASE`) -/
  | lit (c : Char)
  /-- `.` : any character except a newline -/
  | dot
  /-- the class `[0-9]` -/
  | digit
  /-- the class `[A-Za-z0-9_.]` -/
  | wordDot
  /-- the class `\s` -/
  | ws
deriving DecidableEq, Repr

/-- Quantifiers on a single atom. -/
inductive RQuant where
  | one
  | opt
  | star
  | plus
deriving DecidableEq, Repr

/-- One quantified atom of a pattern. -/
structure RPiece where
  atom : RAtom
  quant : RQuant
deriving DecidableEq, Repr

/-- Whether an atom matches a character. -/
def atomMatches : RAtom → Char → Bool
  | .lit c, d => c.toLower == d.toLower
  | .dot, d => d != '\n'
  | .digit, d => d.isDigit
  | .wordDot, d => d.isAlphanum || d == '_' || d == '.'
  | .ws, d => isWsChar d

/-- All remainders obtainable by consuming a (possibly empty) run of
characters matching `a`, longest consumption first (greedy order). -/
def repSuffixes (a : RAtom) : List Char → List (List Char)
  | [] => [[]]
  | c :: rest =>
    if atomMatches a c then repSuffixes a rest ++ [c :: rest] else [c :: rest]

/-- Candidate remainders for one quantified atom, in the order a
backtracking (greedy) regex engine tries them. -/
def pieceCands (p : RPiece) (cs : List Char) : List (List Char) :=
  match p.quant, cs with
  | .one, [] => []
  | .one, c :: rest => if atomMatches p.atom c then [rest] else []
  | .opt, [] => [[]]
  | .opt, c :: rest => if atomMatches p.atom c then [rest, c :: rest] else [c :: rest]
  | .star, l => repSuffixes p.atom l
  | .plus, [] => []
  | .plus, c :: rest => if atomMatches p.atom c then repSuffixes p.atom rest else []

/-- Match a whole pattern at the head of `cs`; returns the remainder after
the match, with Python's greedy backtracking order. -/
def matchPieces (ps : List RPiece) : List Char → Option (List Char) :=
  ps.foldr (fun p cont => fun cs => (pieceCands p cs).findSome? cont) some

/-- `re.sub(pattern, rep, ·)` on character lists, driven by fuel so that the
definition is structurally recursive; `subAll` below supplies enough fuel.
Scans left to right, replacing each non-overlapping match. -/
def subAllFuel (ps : List RPiece) (rep : List Char) : Nat → List Char → List Char
  | 0, cs => cs
  | _ + 1, [] =>
    match matchPieces ps [] with
    | some _ => rep
    | none => []
  | fuel + 1, c :: rest =>
    match matchPieces ps (c :: rest) with
    | none => c :: subAllFuel ps rep fuel rest
    | some rest' =>
      if rest'.length < rest.length + 1 then rep ++ subAllFuel ps rep fuel rest'
      else rep ++ c :: subAllFuel ps rep fuel rest

/-- `re.sub(pattern, rep, text)`: replace every non-overlapping match of
`ps` in `cs` by `rep`. -/
def subAll (ps : List RPiece) (rep : List Char) (cs : List Char) : List Char :=
  subAllFuel ps rep (cs.length + 1) cs

/-- The pieces of a plain literal pattern. -/
def litsOf (s : String) : List RPiece :=
  s.data.map (fun c => ⟨RAtom.lit c, RQuant.one⟩)

/-- The pattern `\s+`. -/
def wsPlus : List RPiece := [⟨RAtom.ws, RQuant.plus⟩]

/-- The pattern `Sorry, we're having trouble playing this video\.?`
(shared by `UNWANTED_PATTERNS` in `ig_scrape_profile.py` and `clean_text`
in `ig_scrape_trends_v2.py`). -/
def troubleVideoPattern : List RPiece :=
  litsOf "Sorry, we're having trouble playing this video" ++ [⟨RAtom.lit '.', RQuant.opt⟩]

/-- `UNWANTED_PATTERNS` from `ig_scrape_profile.py`. -/
def UNWANTED_PATTERNS : List (List RPiece) :=
  [ troubleVideoPattern
  , litsOf "Learn more"
  , litsOf "Original audio"
  , litsOf "View all " ++ [⟨RAtom.digit, RQuant.plus⟩] ++ litsOf " replies"
  , litsOf "View replies"
  , litsOf "See translation"
  , litsOf "Hide all replies"
  , litsOf "Meta" ++ [⟨RAtom.dot, RQuant.star⟩]
  , litsOf "Privacy" ++ [⟨RAtom.dot, RQuant.star⟩]
  , litsOf "Terms" ++ [⟨RAtom.dot, RQuant.star⟩]
  , litsOf "Instagram Lite" ++ [⟨RAtom.dot, RQuant.star⟩]
  , litsOf "Threads" ++ [⟨RAtom.dot, RQuant.star⟩]
  , litsOf "Follow " ++ [⟨RAtom.wordDot, RQuant.plus⟩]
  ]

/-- `clean_raw_text` from `ig_scrape_profile.py`: remove each unwanted
pattern, collapse whitespace runs to single spaces, and strip. -/
def clean_raw_text (text : String) : String :=
  if text = "" then ""
  else
    let t := UNWANTED_PATTERNS.foldl (fun acc p => subAll p [] acc) text.data
    String.mk (pyStripChars (subAll wsPlus [' '] t))

/-- `clean_text` from `ig_scrape_trends_v2.py`: remove the
video-trouble pattern, collapse whitespace runs, and strip. -/
def clean_text (text : String) : String :=
  if text = "" then ""
  else
    String.mk (pyStripChars (subAll wsPlus [' '] (subAll troubleVideoPattern [] text.data)))

/-- Shape of a whitespace-collapsed text: every whitespace character is a
single space and no two whitespace characters are adjacent. Texts produced
by the cleaners' `\s+ → " "` substitution have this shape. -/
def wsCollapsed : List Char → Bool
  | [] => true
  | [c] => !isWsChar c || c == ' '
  | c :: d :: rest => (!isWsChar c || (c == ' ' && !isWsChar d)) && wsCollapsed (d :: rest)

/-- The text does not start with a whitespace character. -/
def noLeadWs : List Char → Bool
  | [] => true
  | c :: _ => !isWsChar c

/-- The text does not end with a whitespace character. -/
def noTrailWs : List Char → Bool
  | [] => true
  | [c] => !isWsChar c
  | _ :: rest => noTrailWs rest

/-! ### `parse_count` (`ig_scrape_trends_v2.py`) -/

/-- Value of a digit string, most significant digit first. -/
def digitsVal (cs : List Char) : Nat :=
  cs.foldl (fun n c => 10 * n + (c.toNat - 48)) 0

/-- Restricted model of Python `float(v)` on the count strings the scraper
produces: an optional sign, decimal digits with at most one point, at least
one digit. Returns the sign and the digits before and after the point.
Exponent, underscore, `inf` and `nan` forms are not modelled: the grouped
count texts in scope never take them. -/
def parseDecimalParts (cs : List Char) : Option (Bool × List Char × List Char) :=
  let (neg, body) :=
    match cs with
    | '+' :: rest => (false, rest)
    | '-' :: rest => (true, rest)
    | _ => (false, cs)
  let intDigits := body.takeWhile (fun c => c != '.')
  let rest := body.dropWhile (fun c => c != '.')
  match rest with
  | [] =>
    if intDigits.all Char.isDigit && !intDigits.isEmpty then some (neg, intDigits, [])
    else none
  | _ :: fracDigits =>
    if intDigits.all Char.isDigit && fracDigits.all Char.isDigit
        && !(intDigits.isEmpty && fracDigits.isEmpty) then
      some (neg, intDigits, fracDigits)
    else none

/-- `parse_count` from `ig_scrape_trends_v2.py`: strip, lowercase, drop
commas, apply a trailing `k`/`m` multiplier, and truncate
`float(mantissa) * multiplier` to an integer. The binary-float product is
modelled by exact decimal arithmetic; it agrees with the float computation
on the scraper's grouped-count inputs. Unparsable or empty input gives
`none`. -/
def parse_count (value : String) : Option Int :=
  if value = "" then none
  else
    let v := (pyStripChars value.data).map Char.toLower
    let v := v.filter (fun c => c != ',')
    let (multiplier, v) : Nat × List Char :=
      match v.getLast? with
      | some 'k' => (1000, v.dropLast)
      | some 'm' => (1000000, v.dropLast)
      | _ => (1, v)
    match parseDecimalParts v with
    | none => none
    | some (neg, intDigits, fracDigits) =>
      let scale := 10 ^ fracDigits.length
      let mag := (digitsVal intDigits * scale + digitsVal fracDigits) * multiplier / scale
      some (if neg then -(mag : Int) else (mag : Int))

/-! ### Posts, pinned filter and the scrape/save phase
(`ig_scrape_profile.py`) -/

/-- The fields of a scraped post that the dedup store and the pinned filter
inspect (`extract_post_details` also returns `raw_text` and `type`, which
neither touches). -/
structure Post where
  url : String
  timestamp : Option String
  raw_text : String
deriving DecidableEq, Repr

/-- `is_pinned` from `scrape_profile`: a post is treated as pinned when its
timestamp is missing or does not end with the literal `Z`
(`ts.endswith("Z")` is exactly "the last character is `Z`"). -/
def is_pinned (p : Post) : Bool :=
  match p.timestamp with
  | none => true
  | some ts => !(ts.data.getLast? == some 'Z')

/-- The scrape-and-store phase of `scrape_profile` (lines 374–393): every
collected candidate URL is resolved to its details and — unless `dry_run` —
its `(post_url, timestamp)` row is written to the `posts` table; the pinned
filter is applied only afterwards, to build `filtered`. Returns the
resolved entries and the rows written to the database. -/
def scrapePhase (detailsOf : String → Post) (urls : List String) (dry_run : Bool) :
    List Post × List (String × Option String) :=
  let entries := urls.map detailsOf
  let saved := if dry_run then [] else entries.map (fun p => (p.url, p.timestamp))
  (entries, saved)

/-- The pinned filter step of `scrape_profile` (line 393). -/
def filterUnpinned (entries : List Post) : List Post :=
  entries.filter (fun p => !is_pinned p)

/-! ### Deep-mode pagination loop (`ig_scrape_profile.py`, lines 283–335) -/

/-- How the deep-mode scroll loop terminated. -/
inductive StopState where
  /-- `len(collected) >= max_posts` (requested target reached) -/
  | targetMet
  /-- `stagnant_rounds >= MAX_STAGNANT` -/
  | stagnant
  /-- the `for round_idx in range(MAX_SCROLL_ROUNDS)` loop ran out -/
  | capped
deriving DecidableEq, Repr

/-- Result of the deep-mode loop: the newly collected URLs in insertion
order, the stop state, the number of rounds executed, and the final
stagnation counter. -/
structure DeepResult where
  admitted : List String
  state : StopState
  rounds : Nat
  stagnantRounds : Nat
deriving DecidableEq, Repr

/-- The inner anchor scan of one deep round: each href not in the store
snapshot and not already collected this run is appended to `collected`. -/
def collectAnchors (known : List String) : List String → List String → List String
  | collected, [] => collected
  | collected, a :: rest =>
    if a ∈ known ∨ a ∈ collected then collectAnchors known collected rest
    else collectAnchors known (collected ++ [a]) rest

/-- One execution of the deep scroll loop from round `roundIdx` with `fuel`
rounds remaining (the source runs `range(MAX_SCROLL_ROUNDS)` with
`MAX_SCROLL_ROUNDS = 200` and `MAX_STAGNANT = 5`). After each round the
loop first checks the target, then stagnation; exhausting the range caps
the run. -/
def deepAux (known : List String) (anchors : Nat → List String) (maxPosts : Nat) :
    Nat → Nat → Nat → List String → DeepResult
  | roundIdx, 0, stagnant, collected => ⟨collected, .capped, roundIdx, stagnant⟩
  | roundIdx, fuel + 1, stagnant, collected =>
    let collected' := collectAnchors known collected (anchors roundIdx)
    let newInRound := collected'.length - collected.length
    let stagnant' := if 0 < newInRound then 0 else stagnant + 1
    if maxPosts ≤ collected'.length then ⟨collected', .targetMet, roundIdx + 1, stagnant'⟩
    else if 5 ≤ stagnant' then ⟨collected', .stagnant, roundIdx + 1, stagnant'⟩
    else deepAux known anchors maxPosts (roundIdx + 1) fuel stagnant' collected'

/-- The deep-mode collection loop of `scrape_profile`: `known` is the dedup
store snapshot (`load_known_posts`), `anchors r` the hrefs visible in round
`r`, `maxPosts` the requested number of new posts. -/
def deepRun (known : List String) (anchors : Nat → List String) (maxPosts : Nat) : DeepResult :=
  deepAux known anchors maxPosts 0 200 0 []

/-! ### Reel extraction, recency filter and engagement ranking
(`ig_scrape_trends_v2.py`) -/

/-- The class `[\d.,]` from the count-search patterns. -/
def countClass (c : Char) : Bool :=
  c.isDigit || c == '.' || c == ','

/-- `re.search(r"([\d.,]+)\s+<word>", text, re.I)`, returning the first
group: scan left to right; at each position take the maximal `[\d.,]` run,
require at least one whitespace character, then the word (compared
case-insensitively). Shrinking the greedy runs cannot help for this
pattern shape, so the committed-greedy scan is exact. -/
def searchCountWord (word : List Char) : List Char → Option (List Char)
  | [] => none
  | c :: rest =>
    if countClass c then
      let grp := (c :: rest).takeWhile countClass
      let after := (c :: rest).dropWhile countClass
      let wsRun := after.takeWhile isWsChar
      let after2 := after.dropWhile isWsChar
      if !wsRun.isEmpty && (word.map Char.toLower).isPrefixOf (after2.map Char.toLower) then
        some grp
      else searchCountWord word rest
    else searchCountWord word rest

/-- The fields of a scraped reel used by the recency filter and the
engagement ranking (`extract_reel_details` also returns url, shortcode,
caption, audio name and hashtags, which neither touches). `timestamp` and
`age_hours` are kept as exact instants/rationals; the source additionally
rounds `age_hours` to two decimals for display. -/
structure Reel where
  timestamp : Option ℚ
  age_hours : ℚ
  likes : Int
  comments : Int
  engagement_score : Int
deriving DecidableEq, Repr

/-- `extract_reel_details` (`ig_scrape_trends_v2.py`, lines 340–451),
with the page collaborator abstracted: `ts` is the post instant parsed from
the page's `datetime` attribute (absent when missing or unparsable — the
`except` path), `now` the current instant, both in seconds, and `bodyText`
the page body text. A reel with unknown age is skipped; a reel older than
`maxHours` is skipped; otherwise likes/comments are searched in the cleaned
body, an unparsable or missing count becomes `0`, and
`engagement_score = likes + comments * 3`. -/
def extract_reel_details (now : ℚ) (ts : Option ℚ) (maxHours : ℚ) (bodyText : String) :
    Option Reel :=
  match ts with
  | none => none
  | some dt =>
    let age_hours : ℚ := (now - dt) / 3600
    if age_hours > maxHours then none
    else
      let cleaned := clean_text bodyText
      let likes :=
        ((searchCountWord "likes".data cleaned.data).bind
          (fun g => parse_count (String.mk g))).getD 0
      let comments :=
        ((searchCountWord "comments".data cleaned.data).bind
          (fun g => parse_count (String.mk g))).getD 0
      some ⟨some dt, age_hours, likes, comments, likes + comments * 3⟩

/-- Insert a reel into a list already sorted by `engagement_score`
descending, after any reel of equal score (stable). -/
def insertByScoreDesc (r : Reel) : List Reel → List Reel
  | [] => [r]
  | x :: xs =>
    if x.engagement_score < r.engagement_score then r :: x :: xs
    else x :: insertByScoreDesc r xs

/-- `results.sort(key=lambda r: r.get("engagement_score", 0), reverse=True)`
(`scrape_trends`, line 558): a stable sort by the stored
`engagement_score` field, descending; equal scores keep their input order.
Modelled by stable insertion sort, which computes the same list. -/
def sortReels (rs : List Reel) : List Reel :=
  rs.foldl (fun acc r => insertByScoreDesc r acc) []

/-! ### Downstream truncation (`ig_classify_posts_basic.py`) -/

/-- Index of the first occurrence of `sep` in a character list, if any. -/
def firstOccIdx (sep : List Char) : List Char → Option Nat
  | [] => if sep.isEmpty then some 0 else none
  | c :: rest =>
    if sep.isPrefixOf (c :: rest) then some 0
    else (firstOccIdx sep rest).map (· + 1)

/-- Python's `text.split(marker)[0]` guarded by `marker in text`: keep the
prefix strictly before the first occurrence of `marker`, or the whole text
when it does not occur. -/
def cutOne (t : List Char) (m : List Char) : List Char :=
  match firstOccIdx m t with
  | some i => t.take i
  | none => t

/-- `cut_markers` from `clean_text_for_model`. -/
def cut_markers : List String :=
  [ "More posts from"
  , "About Blog Jobs Help"
  , "Instagram from"
  , "Uploading & Non-Users"
  , "Privacy Terms"
  , "Meta ©"
  ]

/-- The marker loop of `clean_text_for_model`: cut at each marker's first
occurrence, in list order. -/
def markerCut (cs : List Char) : List Char :=
  cut_markers.foldl (fun acc m => cutOne acc m.data) cs

/-- The hard length cap of `clean_text_for_model`: texts longer than 4000
characters are cut and an explicit truncation marker is appended. -/
def hardTrunc (cs : List Char) : List Char :=
  if 4000 < cs.length then cs.take 4000 ++ (" ... [TRUNCATED]").data else cs

/-- `clean_text_for_model` from `ig_classify_posts_basic.py`: empty text
stays empty; otherwise cut at the markers, apply the 4000-character cap,
and strip surrounding whitespace. -/
def clean_text_for_model (text : String) : String :=
  if text = "" then ""
  else String.mk (pyStripChars (hardTrunc (markerCut text.data)))

/-! ## Lemmas about the deep pagination loop -/

theorem deepAux_cases (known : List String) (anchors : Nat → List String) (maxPosts : Nat) :
    ∀ (fuel roundIdx stagnant : Nat) (collected : List String),
      stagnant < 5 → (collected.length < maxPosts ∨ 0 < fuel) →
      ((deepAux known anchors maxPosts roundIdx fuel stagnant collected).state = .targetMet →
        maxPosts ≤ (deepAux known anchors maxPosts roundIdx fuel stagnant collected).admitted.length) ∧
      ((deepAux known anchors maxPosts roundIdx fuel stagnant collected).state = .stagnant →
        (deepAux known anchors maxPosts roundIdx fuel stagnant collected).admitted.length < maxPosts ∧
        (deepAux known anchors maxPosts roundIdx fuel stagnant collected).stagnantRounds = 5) ∧
      ((deepAux known anchors maxPosts roundIdx fuel stagnant collected).state = .capped →
        (deepAux known anchors maxPosts roundIdx fuel stagnant collected).admitted.length < maxPosts ∧
        (deepAux known anchors maxPosts roundIdx fuel stagnant collected).stagnantRounds < 5 ∧
        (deepAux known anchors maxPosts roundIdx fuel stagnant collected).rounds = roundIdx + fuel) := by
  intro fuel
  induction fuel with
  | zero =>
    intro roundIdx stagnant collected h5 hor
    have hlen : collected.length < maxPosts := by
      rcases hor with h | h
      · exact h
      · exact absurd h (by omega)
    refine ⟨?_, ?_, ?_⟩ <;> simp [deepAux] <;> omega
  | succ n ih =>
    intro roundIdx stagnant collected h5 _
    simp only [deepAux]
    set collected' := collectAnchors known collected (anchors roundIdx) with hc
    set stagnant' :=
      if 0 < collected'.length - collected.length then 0 else stagnant + 1 with hs
    by_cases htgt : maxPosts ≤ collected'.length
    · simp only [if_pos htgt]
      refine ⟨fun _ => htgt, ?_, ?_⟩
      · intro h
        exact absurd h (by decide)
      · intro h
        exact absurd h (by decide)
    · simp only [if_neg htgt]
      by_cases hstag : 5 ≤ stagnant'
      · simp only [if_pos hstag]
        have hs5 : stagnant' = 5 := by
          by_cases hd : 0 < collected'.length - collected.length
          · rw [hs, if_pos hd] at hstag
            omega
          · rw [hs, if_neg hd] at hstag ⊢
            omega
        refine ⟨?_, fun _ => ⟨by omega, hs5⟩, ?_⟩
        · intro h
          exact absurd h (by decide)
        · intro h
          exact absurd h (by decide)
      · simp only [if_neg hstag]
        have h5' : stagnant' < 5 := by omega
        have hrest := ih (roundIdx + 1) stagnant' collected' h5' (Or.inl (by omega))
        refine ⟨hrest.1, hrest.2.1, fun h => ?_⟩
        have hcap := hrest.2.2 h
        exact ⟨hcap.1, hcap.2.1, by omega⟩

theorem collectAnchors_of_known (known : List String) :
    ∀ (anchors collected : List String), (∀ u ∈ anchors, u ∈ known) →
      collectAnchors known collected anchors = collected := by
  intro anchors
  induction anchors with
  | nil => intro collected _; rfl
  | cons a rest ih =>
    intro collected h
    have ha : a ∈ known := h a (List.mem_cons_self a rest)
    simp only [collectAnchors, if_pos (Or.inl ha)]
    exact ih collected (fun u hu => h u (List.mem_cons_of_mem a hu))

theorem deepAux_of_known (known : List String) (anchors : Nat → List String) (maxPosts : Nat)
    (h : ∀ r, ∀ u ∈ anchors r, u ∈ known) :
    ∀ (fuel roundIdx stagnant : Nat) (collected : List String),
      (deepAux known anchors maxPosts roundIdx fuel stagnant collected).admitted = collected := by
  intro fuel
  induction fuel with
  | zero => intro roundIdx stagnant collected; rfl
  | succ n ih =>
    intro roundIdx stagnant collected
    have hca := collectAnchors_of_known known (anchors roundIdx) collected (h roundIdx)
    simp only [deepAux, hca]
    by_cases h1 : maxPosts ≤ collected.length
    · rw [if_pos h1]
    · rw [if_neg h1]
      by_cases h2 : 5 ≤ (if 0 < collected.length - collected.length then 0 else stagnant + 1)
      · rw [if_pos h2]
      · rw [if_neg h2]
        exact ih _ _ _

/-- C1: in the bounded (deep-mode) pagination run the stop conditions are
checked after each round in priority order — target met
(`cumulative new ≥ targetNewCount`) first, then stagnation
(counter incremented on zero-delta rounds, reset otherwise, limit 5), then
the 200-round cap — and with `targetNewCount = 10` and round deltas
`[3, 4, 3, 0, …]` the run stops right after round 3 with 10 admitted items
in the target-met state. -/
theorem deep_loop_stop_priority :
    (∀ (known : List String) (anchors : Nat → List String) (maxPosts : Nat),
      ((deepRun known anchors maxPosts).state = StopState.targetMet ↔
        maxPosts ≤ (deepRun known anchors maxPosts).admitted.length) ∧
      ((deepRun known anchors maxPosts).state = StopState.stagnant ↔
        (deepRun known anchors maxPosts).admitted.length < maxPosts ∧
        (deepRun known anchors maxPosts).stagnantRounds = 5) ∧
      ((deepRun known anchors maxPosts).state = StopState.capped ↔
        (deepRun known anchors maxPosts).admitted.length < maxPosts ∧
        (deepRun known anchors maxPosts).stagnantRounds < 5 ∧
        (deepRun known anchors maxPosts).rounds = 200)) ∧
    deepRun []
      (fun r => if r = 0 then ["p1", "p2", "p3"]
        else if r = 1 then ["p1", "p2", "p3", "p4", "p5", "p6", "p7"]
        else ["p1", "p2", "p3", "p4", "p5", "p6", "p7", "p8", "p9", "p10"]) 10
      = ⟨["p1", "p2", "p3", "p4", "p5", "p6", "p7", "p8", "p9", "p10"],
          StopState.targetMet, 3, 0⟩ := by
  constructor
  · intro known anchors maxPosts
    have h := deepAux_cases known anchors maxPosts 200 0 0 []
      (by omega) (Or.inr (by omega))
    rw [show deepAux known anchors maxPosts 0 200 0 [] = deepRun known anchors maxPosts from rfl]
      at h
    obtain ⟨ht, hs, hc⟩ := h
    refine ⟨⟨ht, fun hlen => ?_⟩, ⟨hs, fun hlen => ?_⟩, ⟨hc, fun hlen => ?_⟩⟩
    · cases hst : (deepRun known anchors maxPosts).state
      · rfl
      · have := hs hst; omega
      · have := hc hst; omega
    · cases hst : (deepRun known anchors maxPosts).state
      · have := ht hst; omega
      · rfl
      · have := hc hst; omega
    · cases hst : (deepRun known anchors maxPosts).state
      · have := ht hst; omega
      · have := hs hst; omega
      · rfl
  · decide

/-- C2 counterexample: with an unchanged source whose collector yields
round-indexed anchor lists `["a"]`, `["a","b"]`, `["a","b"]`, … and a
target of one new item, the first run stops at the target having admitted
`["a"]`; a second run against the store written by the first run scrolls
one round further and admits `["b"]` — not zero new items. -/
theorem deepRun_rerun_admits_new_cex :
    (deepRun [] (fun r => if r = 0 then ["a"] else ["a", "b"]) 1).admitted = ["a"] ∧
    (deepRun ((deepRun [] (fun r => if r = 0 then ["a"] else ["a", "b"]) 1).admitted)
        (fun r => if r = 0 then ["a"] else ["a", "b"]) 1).admitted = ["b"] ∧
    (["b"] : List String) ≠ [] := by
  exact ⟨by decide, by decide, by decide⟩

/-- C2 amended: re-running the deep-mode pagination controller against an
unchanged source admits zero new items provided every candidate reference
the collector yields was already either in the dedup store or admitted by
the first run (as when the first run exhausted the source); without that
proviso a first run stopped early by its target leaves later candidates
unadmitted and a second run admits them (see the counterexample). -/
theorem deepRun_rerun_no_new (known : List String) (anchors : Nat → List String) (maxPosts : Nat)
    (h : ∀ r, ∀ u ∈ anchors r, u ∈ known ∨ u ∈ (deepRun known anchors maxPosts).admitted) :
    (deepRun (known ++ (deepRun known anchors maxPosts).admitted) anchors maxPosts).admitted
      = [] := by
  apply deepAux_of_known
  intro r u hu
  rcases h r u hu with h' | h'
  · exact List.mem_append_left _ h'
  · exact List.mem_append_right _ h'

/-- Witness for the amended C2: a source whose only candidate is already in
the store admits nothing on the first run and nothing on the second. -/
theorem deepRun_rerun_no_new_witness :
    (deepRun (["a"] ++ (deepRun ["a"] (fun _ => ["a"]) 5).admitted)
        (fun _ => ["a"]) 5).admitted = [] :=
  deepRun_rerun_no_new ["a"] (fun _ => ["a"]) 5 (fun _ u hu => Or.inl hu)

/-- C3: in chronological mode the pinned filter admits a record exactly
when its timestamp is present and ends with the literal character `Z`;
an absent timestamp and `"2024-01-01T00:00:00+02:00"` are excluded,
`"2024-01-01T00:00:00Z"` is admitted. -/
theorem is_pinned_admits_iff (p : Post) :
    (is_pinned p = false ↔
      ∃ ts : String, p.timestamp = some ts ∧ ts.data.getLast? = some 'Z') ∧
    is_pinned ⟨"u", none, ""⟩ = true ∧
    is_pinned ⟨"u", some "2024-01-01T00:00:00+02:00", ""⟩ = true ∧
    is_pinned ⟨"u", some "2024-01-01T00:00:00Z", ""⟩ = false := by
  refine ⟨?_, by decide, by decide, by decide⟩
  obtain ⟨url, ts?, raw⟩ := p
  cases ts? with
  | none => simp [is_pinned]
  | some ts =>
    simp only [is_pinned, Bool.not_eq_false', beq_iff_eq]
    constructor
    · intro h
      exact ⟨ts, rfl, by simpa using h⟩
    · rintro ⟨ts', hts', hlast⟩
      cases hts'
      simpa using hlast

/-- C6: `parse_count` accepts grouped digits with comma separators and a
trailing case-insensitive `k`/`m` suffix, truncating
`float(mantissa) * multiplier` to an integer: `"4.5M"` and `"4.5m"` give
4500000, `"12,345"` gives 12345, `"12K"` gives 12000, and empty or
unparsable input gives `none`, never 0. -/
theorem parse_count_spec :
    parse_count "4.5M" = some 4500000 ∧
    parse_count "12,345" = some 12345 ∧
    parse_count "" = none ∧
    parse_count "abc" = none ∧
    parse_count "4.5m" = some 4500000 ∧
    parse_count "12K" = some 12000 := by
  decide

/-- C8 counterexample: a candidate that passed the dedup check but whose
details carry no timestamp is excluded by the pinned filter, yet its row is
still written to the `posts` table — persistence is not conditioned on
admission. -/
theorem scrapePhase_saves_pinned_cex :
    (scrapePhase (fun u => ⟨u, none, ""⟩) ["u1"] false).2 = [("u1", none)] ∧
    filterUnpinned (scrapePhase (fun u => ⟨u, none, ""⟩) ["u1"] false).1 = [] := by
  exact ⟨by decide, by decide⟩

/-- C8 amended: during a non-dry run, a `(post_url, timestamp)` row is
written to the dedup store for every candidate that passed the dedup check,
regardless of the pinned admission filter (which runs only afterwards);
a dry run writes nothing. -/
theorem scrapePhase_saves_all_collected (detailsOf : String → Post) (urls : List String) :
    (scrapePhase detailsOf urls false).2
      = (urls.map detailsOf).map (fun p => (p.url, p.timestamp)) ∧
    (scrapePhase detailsOf urls true).2 = [] ∧
    ((scrapePhase detailsOf urls false).1.map (fun p => (p.url, p.timestamp))).all
      (fun row => decide (row ∈ (scrapePhase detailsOf urls false).2)) = true := by
  refine ⟨rfl, rfl, ?_⟩
  simp only [List.all_eq_true, decide_eq_true_eq]
  intro row hrow
  simpa [scrapePhase] using hrow

/-! ## Lemmas about the engagement sort -/

theorem insertByScoreDesc_perm (r : Reel) (l : List Reel) :
    List.Perm (insertByScoreDesc r l) (r :: l) := by
  induction l with
  | nil => exact List.Perm.refl _
  | cons x xs ih =>
    simp only [insertByScoreDesc]
    split
    · exact List.Perm.refl _
    · exact (ih.cons x).trans (List.Perm.swap r x xs)

theorem sortReels_foldl_perm :
    ∀ (rs acc : List Reel),
      List.Perm (rs.foldl (fun acc r => insertByScoreDesc r acc) acc) (rs ++ acc) := by
  intro rs
  induction rs with
  | nil => intro acc; exact List.Perm.refl _
  | cons r rs' ih =>
    intro acc
    have h1 : (r :: rs').foldl (fun acc r => insertByScoreDesc r acc) acc
        = rs'.foldl (fun acc r => insertByScoreDesc r acc) (insertByScoreDesc r acc) := rfl
    rw [h1]
    have h2 := ih (insertByScoreDesc r acc)
    have h3 := (insertByScoreDesc_perm r acc).append_left rs'
    have h4 : List.Perm (rs' ++ r :: acc) (r :: (rs' ++ acc)) := List.perm_middle
    exact h2.trans (h3.trans h4)

theorem insertByScoreDesc_pairwise (r : Reel) (l : List Reel)
    (h : l.Pairwise (fun a b => b.engagement_score ≤ a.engagement_score)) :
    (insertByScoreDesc r l).Pairwise (fun a b => b.engagement_score ≤ a.engagement_score) := by
  induction l with
  | nil => simp [insertByScoreDesc]
  | cons x xs ih =>
    rw [List.pairwise_cons] at h
    simp only [insertByScoreDesc]
    split
    · rename_i hlt
      rw [List.pairwise_cons]
      refine ⟨?_, List.pairwise_cons.mpr h⟩
      intro b hb
      rcases List.mem_cons.mp hb with hbx | hbxs
      · subst hbx
        omega
      · have := h.1 b hbxs
        omega
    · rename_i hnlt
      rw [List.pairwise_cons]
      refine ⟨?_, ih h.2⟩
      intro b hb
      have hb' : b ∈ r :: xs := (insertByScoreDesc_perm r xs).subset hb
      rcases List.mem_cons.mp hb' with hbr | hbxs
      · subst hbr
        omega
      · exact h.1 b hbxs

theorem sortReels_foldl_pairwise :
    ∀ (rs acc : List Reel),
      acc.Pairwise (fun a b => b.engagement_score ≤ a.engagement_score) →
      (rs.foldl (fun acc r => insertByScoreDesc r acc) acc).Pairwise
        (fun a b => b.engagement_score ≤ a.engagement_score) := by
  intro rs
  induction rs with
  | nil => intro acc h; exact h
  | cons r rs' ih =>
    intro acc h
    exact ih _ (insertByScoreDesc_pairwise r acc h)

/-- C5 counterexample: two reels with equal engagement score
(`40 + 3·20 = 100 + 3·0 = 100`) where the second is strictly more recent
keep their input order under the engagement sort — the tie is not broken
by timestamp descending, because `list.sort(..., reverse=True)` is stable
and uses only the stored `engagement_score` key. -/
theorem sortReels_no_timestamp_tiebreak_cex :
    sortReels [⟨some 0, 1, 40, 20, 100⟩, ⟨some 100, 1, 100, 0, 100⟩]
      = [⟨some 0, 1, 40, 20, 100⟩, ⟨some 100, 1, 100, 0, 100⟩] ∧
    (⟨some 0, 1, 40, 20, 100⟩ : Reel).engagement_score
      = (⟨some 100, 1, 100, 0, 100⟩ : Reel).engagement_score ∧
    ((0 : ℚ) < 100) := by
  refine ⟨by decide, by decide, by norm_num⟩

/-- C5 amended: the engagement strategy sorts admitted reels by
`engagement_score` descending; equal scores keep their input order (stable
sort — there is no timestamp tie-break), and the sorted key is the stored
`engagement_score` field, which `extract_reel_details` always sets to
`likes + 3·comments`; in particular a reel scoring 140 (likes 50,
comments 30) ranks above one scoring 130 (likes 100, comments 10)
regardless of input order. -/
theorem sortReels_by_score_desc :
    (∀ rs : List Reel,
      List.Perm (sortReels rs) rs ∧
      (sortReels rs).Pairwise (fun a b => b.engagement_score ≤ a.engagement_score)) ∧
    (∀ (now : ℚ) (ts : Option ℚ) (maxHours : ℚ) (body : String),
      ((extract_reel_details now ts maxHours body).all
        (fun r => r.engagement_score == r.likes + r.comments * 3)) = true) ∧
    sortReels [⟨some 5, 1, 100, 10, 130⟩, ⟨some 0, 1, 50, 30, 140⟩]
      = [⟨some 0, 1, 50, 30, 140⟩, ⟨some 5, 1, 100, 10, 130⟩] ∧
    sortReels [⟨some 0, 1, 50, 30, 140⟩, ⟨some 5, 1, 100, 10, 130⟩]
      = [⟨some 0, 1, 50, 30, 140⟩, ⟨some 5, 1, 100, 10, 130⟩] := by
  refine ⟨?_, ?_, by decide, by decide⟩
  · intro rs
    constructor
    · simpa using sortReels_foldl_perm rs []
    · exact sortReels_foldl_pairwise rs [] List.Pairwise.nil
  · intro now ts maxHours body
    cases ts with
    | none => rfl
    | some dt =>
      simp only [extract_reel_details]
      split
      · rfl
      · simp

/-- C4: the engagement-mode recency filter admits a reel exactly when its
timestamp is present and its age `(now - timestamp)/3600` hours is at most
`maxAgeHours` — inclusive at the boundary; with `maxAgeHours = 72` a reel
aged 73 hours is dropped, one aged 71.9 hours is retained, one aged exactly
72 hours is retained, and a reel whose timestamp is missing or unparsable
is dropped. -/
theorem recency_filter_spec :
    (∀ (now dt maxHours : ℚ) (body : String),
      (extract_reel_details now (some dt) maxHours body).isSome ↔
        (now - dt) / 3600 ≤ maxHours) ∧
    (∀ (now maxHours : ℚ) (body : String),
      extract_reel_details now none maxHours body = none) ∧
    extract_reel_details (73 * 3600) (some 0) 72 "" = none ∧
    (extract_reel_details ((719 / 10) * 3600) (some 0) 72 "").isSome = true ∧
    (extract_reel_details (72 * 3600) (some 0) 72 "").isSome = true := by
  have hiff : ∀ (now dt maxHours : ℚ) (body : String),
      (extract_reel_details now (some dt) maxHours body).isSome ↔
        (now - dt) / 3600 ≤ maxHours := by
    intro now dt maxHours body
    simp only [extract_reel_details]
    split
    · rename_i hgt
      simp only [Option.isSome_none, Bool.false_eq_true, false_iff, not_le]
      exact hgt
    · rename_i hngt
      simp only [Option.isSome_some, true_iff]
      exact not_lt.mp hngt
  refine ⟨hiff, ?_, ?_, ?_, ?_⟩
  · intro now maxHours body
    rfl
  · have h : ¬ ((73 * 3600 - 0 : ℚ) / 3600 ≤ 72) := by norm_num
    have := (hiff (73 * 3600) 0 72 "").not.mpr h
    cases hext : extract_reel_details (73 * 3600) (some 0) 72 "" with
    | none => rfl
    | some r =>
      rw [hext] at this
      simp at this
  · rw [hiff]
    norm_num
  · rw [hiff]
    norm_num

/-- C10: in engagement mode a missing or unparsable likes or comments count
is replaced by 0 before `engagement_score` is computed, so whether a reel
is retained does not depend on the page body at all, and a reel with
entirely unknown metrics is kept with `engagement_score = 0` rather than
dropped or given an absent score. -/
theorem missing_counts_default_zero :
    (∀ (now : ℚ) (ts : Option ℚ) (maxHours : ℚ) (b1 b2 : String),
      (extract_reel_details now ts maxHours b1).isSome
        = (extract_reel_details now ts maxHours b2).isSome) ∧
    extract_reel_details 3600 (some 0) 72 "just vibes"
      = some ⟨some 0, 1, 0, 0, 0⟩ := by
  constructor
  · intro now ts maxHours b1 b2
    cases ts with
    | none => rfl
    | some dt =>
      simp only [extract_reel_details]
      split
      · rfl
      · rfl
  · simp only [extract_reel_details]
    rw [if_neg (by norm_num : ¬ ((3600 - 0 : ℚ) / 3600 > 72))]
    have hlikes :
        ((searchCountWord "likes".data (clean_text "just vibes").data).bind
          (fun g => parse_count (String.mk g))).getD 0 = 0 := by decide
    have hcom :
        ((searchCountWord "comments".data (clean_text "just vibes").data).bind
          (fun g => parse_count (String.mk g))).getD 0 = 0 := by decide
    rw [hlikes, hcom]
    norm_num

/-! ## Lemmas about marker truncation -/

theorem firstOccIdx_some_spec (m : List Char) :
    ∀ (cs : List Char) (i : Nat), firstOccIdx m cs = some i →
      m.isPrefixOf (cs.drop i) = true ∧ ∀ j, j < i → m.isPrefixOf (cs.drop j) = false := by
  intro cs
  induction cs with
  | nil =>
    intro i h
    simp only [firstOccIdx] at h
    split at h
    · rename_i hm
      cases h
      refine ⟨?_, fun j hj => absurd hj (by omega)⟩
      rcases m with _ | ⟨c, m'⟩
      · rfl
      · simp [List.isEmpty] at hm
    · cases h
  | cons c rest ih =>
    intro i h
    simp only [firstOccIdx] at h
    split at h
    · rename_i hp
      cases h
      exact ⟨hp, fun j hj => absurd hj (by omega)⟩
    · rename_i hp
      rcases Option.map_eq_some'.mp h with ⟨i', hi', rfl⟩
      obtain ⟨h1, h2⟩ := ih i' hi'
      refine ⟨h1, ?_⟩
      intro j hj
      cases j with
      | zero =>
        simp only [List.drop_zero]
        exact Bool.not_eq_true _ ▸ Bool.eq_false_iff.mpr hp
      | succ j' =>
        exact h2 j' (by omega)

theorem firstOccIdx_none_spec (m : List Char) :
    ∀ cs, firstOccIdx m cs = none → ∀ j, m.isPrefixOf (cs.drop j) = false := by
  intro cs
  induction cs with
  | nil =>
    intro h j
    simp only [firstOccIdx] at h
    split at h
    · cases h
    · rename_i hm
      rcases m with _ | ⟨c, m'⟩
      · simp [List.isEmpty] at hm
      · rw [List.drop_nil]
        rfl
  | cons c rest ih =>
    intro h j
    simp only [firstOccIdx] at h
    split at h
    · cases h
    · rename_i hp
      have hrest : firstOccIdx m rest = none := by
        cases hr : firstOccIdx m rest with
        | none => rfl
        | some k => rw [hr] at h; cases h
      cases j with
      | zero =>
        simp only [List.drop_zero]
        exact Bool.eq_false_iff.mpr hp
      | succ j' =>
        exact ih hrest j'

theorem isPrefixOf_of_take (m l : List Char) (n j : Nat)
    (h : m.isPrefixOf ((l.take n).drop j) = true) : m.isPrefixOf (l.drop j) = true := by
  rw [List.isPrefixOf_iff_prefix] at h ⊢
  have hp : (l.take n).drop j <+: l.drop j := by
    rw [List.drop_take]
    exact List.take_prefix _ _
  exact h.trans hp

theorem firstOccIdx_none_take (m l : List Char) (n : Nat)
    (h : firstOccIdx m l = none) : firstOccIdx m (l.take n) = none := by
  cases hf : firstOccIdx m (l.take n) with
  | none => rfl
  | some i =>
    have h1 := (firstOccIdx_some_spec m (l.take n) i hf).1
    have h2 := isPrefixOf_of_take m l n i h1
    have h3 := firstOccIdx_none_spec m l h i
    rw [h2] at h3
    cases h3

theorem firstOccIdx_cutOne (m cs : List Char) :
    firstOccIdx m (cutOne cs m) = none ∨ (m.isEmpty = true ∧ cutOne cs m = []) := by
  cases h : firstOccIdx m cs with
  | none =>
    left
    simpa [cutOne, h] using h
  | some i =>
    obtain ⟨h1, h2⟩ := firstOccIdx_some_spec m cs i h
    rcases m with _ | ⟨c, m'⟩
    · right
      have hi : i = 0 := by
        by_contra hne
        have := h2 0 (by omega)
        simp at this
      simp [cutOne, h, hi, List.isEmpty]
    · left
      simp only [cutOne, h]
      cases hf : firstOccIdx (c :: m') ((cs.take i)) with
      | none => rfl
      | some k =>
        have hk1 := (firstOccIdx_some_spec _ _ k hf).1
        have hk2 := isPrefixOf_of_take _ cs i k hk1
        have hklt : k < i ∨ i ≤ k := by omega
        rcases hklt with hlt | hge
        · rw [h2 k hlt] at hk2
          cases hk2
        · have hlen : (c :: m').isPrefixOf ((cs.take i).drop k) = true := hk1
          have : (cs.take i).drop k = [] := by
            apply List.drop_eq_nil_of_le
            calc (cs.take i).length ≤ i := by
                  simpa using List.length_take_le i cs
              _ ≤ k := hge
          rw [this] at hlen
          cases hlen

theorem cutOne_is_take (cs m : List Char) : ∃ n, cutOne cs m = cs.take n := by
  cases h : firstOccIdx m cs with
  | none => exact ⟨cs.length, by simp [cutOne, h]⟩
  | some i => exact ⟨i, by simp [cutOne, h]⟩

theorem markerCut_no_marker_aux (ms : List String)
    (hm : ∀ m ∈ ms, (m.data).isEmpty = false) :
    ∀ cs : List Char,
      (∀ m ∈ ms, firstOccIdx m.data (ms.foldl (fun acc m => cutOne acc m.data) cs) = none) ∧
      ∃ n, ms.foldl (fun acc m => cutOne acc m.data) cs = cs.take n := by
  induction ms with
  | nil =>
    intro cs
    exact ⟨fun m hmem => absurd hmem (List.not_mem_nil m), cs.length, by simp⟩
  | cons m ms' ih =>
    intro cs
    have hm' : ∀ x ∈ ms', (x.data).isEmpty = false :=
      fun x hx => hm x (List.mem_cons_of_mem m hx)
    have hfold : (m :: ms').foldl (fun acc x => cutOne acc x.data) cs
        = ms'.foldl (fun acc x => cutOne acc x.data) (cutOne cs m.data) := rfl
    obtain ⟨hnone', ⟨n', hn'⟩⟩ := ih hm' (cutOne cs m.data)
    constructor
    · intro x hx
      rcases List.mem_cons.mp hx with rfl | hx'
      · rw [hfold, hn']
        have hcut : firstOccIdx x.data (cutOne cs x.data) = none := by
          rcases firstOccIdx_cutOne x.data cs with h | ⟨he, _⟩
          · exact h
          · rw [hm x (List.mem_cons_self x ms')] at he
            cases he
        exact firstOccIdx_none_take _ _ _ hcut
      · rw [hfold]
        exact hnone' x hx'
    · obtain ⟨k, hk⟩ := cutOne_is_take cs m.data
      refine ⟨min n' k, ?_⟩
      rw [hfold, hn', hk, List.take_take]

/-- C9 counterexample: on `"ab More posts fromXY"` the first cut marker
occurs at index 3, so the claimed result — the text truncated at that first
occurrence — is `"ab "`; `clean_text_for_model` instead returns the
stripped `"ab"`. -/
theorem clean_text_for_model_cex :
    clean_text_for_model "ab More posts fromXY" = "ab" ∧
    firstOccIdx ("More posts from").data ("ab More posts fromXY").data = some 3 ∧
    String.mk (("ab More posts fromXY").data.take 3) = "ab " ∧
    ("ab" : String) ≠ "ab " := by
  exact ⟨by decide, by decide, by decide, by decide⟩

/-- C9 amended: `clean_text_for_model` cuts the text at the first
occurrence of each configured marker in turn — so no marker occurs in the
marker-cut text — then hard-truncates at 4000 characters appending
`" ... [TRUNCATED]"` if still longer, and finally strips surrounding
whitespace; empty input yields empty output, and the function is total
(never throws). -/
theorem clean_text_for_model_spec (text : String) :
    (∀ m ∈ cut_markers, firstOccIdx m.data (markerCut text.data) = none) ∧
    (∀ (m cs : List Char) (i : Nat), firstOccIdx m cs = some i →
      cutOne cs m = cs.take i ∧ m.isPrefixOf (cs.drop i) = true ∧
      ∀ j, j < i → m.isPrefixOf (cs.drop j) = false) ∧
    clean_text_for_model "" = "" ∧
    ((markerCut text.data).length ≤ 4000 → text ≠ "" →
      clean_text_for_model text = String.mk (pyStripChars (markerCut text.data))) ∧
    (4000 < (markerCut text.data).length →
      clean_text_for_model text
        = String.mk (pyStripChars
            ((markerCut text.data).take 4000 ++ (" ... [TRUNCATED]").data))) := by
  have hmarkers : ∀ m ∈ cut_markers, (m.data).isEmpty = false := by decide
  refine ⟨?_, ?_, rfl, ?_, ?_⟩
  · intro m hmem
    exact (markerCut_no_marker_aux cut_markers hmarkers text.data).1 m hmem
  · intro m cs i h
    obtain ⟨h1, h2⟩ := firstOccIdx_some_spec m cs i h
    exact ⟨by simp [cutOne, h], h1, h2⟩
  · intro hlen hne
    simp only [clean_text_for_model, if_neg hne, hardTrunc,
      if_neg (by omega : ¬ 4000 < (markerCut text.data).length)]
  · intro hlen
    have hne : text ≠ "" := by
      intro he
      rw [he] at hlen
      simp [markerCut, cut_markers, cutOne, firstOccIdx, List.isEmpty] at hlen
    simp only [clean_text_for_model, if_neg hne, hardTrunc, if_pos hlen]

/-! ## Lemmas about the text cleaners -/

theorem dropWhile_head_false (p : Char → Bool) :
    ∀ (l : List Char) (c : Char) (t : List Char), l.dropWhile p = c :: t → p c = false := by
  intro l
  induction l with
  | nil => intro c t h; cases h
  | cons x xs ih =>
    intro c t h
    rw [List.dropWhile_cons] at h
    split at h
    · exact ih c t h
    · rename_i hx
      cases h
      exact Bool.eq_false_iff.mpr hx

theorem repSuffixes_head (a : RAtom) :
    ∀ l : List Char, ∃ tl, repSuffixes a l = (l.dropWhile (atomMatches a)) :: tl := by
  intro l
  induction l with
  | nil => exact ⟨[], rfl⟩
  | cons c rest ih =>
    simp only [repSuffixes, List.dropWhile_cons]
    by_cases h : atomMatches a c = true
    · rw [if_pos h, if_pos h]
      obtain ⟨tl, htl⟩ := ih
      exact ⟨tl ++ [c :: rest], by rw [htl]; rfl⟩
    · rw [if_neg h, if_neg h]
      exact ⟨[], rfl⟩

theorem matchPieces_wsPlus_nil : matchPieces wsPlus [] = none := rfl

theorem matchPieces_wsPlus_pos (c : Char) (rest : List Char) (h : isWsChar c = true) :
    matchPieces wsPlus (c :: rest) = some (rest.dropWhile isWsChar) := by
  have h1 : matchPieces wsPlus (c :: rest)
      = (pieceCands ⟨RAtom.ws, RQuant.plus⟩ (c :: rest)).findSome? some := rfl
  have hws : atomMatches RAtom.ws = isWsChar := funext fun _ => rfl
  rw [h1]
  simp only [pieceCands, hws, h, if_pos]
  obtain ⟨tl, htl⟩ := repSuffixes_head RAtom.ws rest
  rw [hws] at htl
  rw [htl]
  simp [List.findSome?_cons]

theorem matchPieces_wsPlus_neg (c : Char) (rest : List Char) (h : isWsChar c = false) :
    matchPieces wsPlus (c :: rest) = none := by
  have h1 : matchPieces wsPlus (c :: rest)
      = (pieceCands ⟨RAtom.ws, RQuant.plus⟩ (c :: rest)).findSome? some := rfl
  have hws : atomMatches RAtom.ws = isWsChar := funext fun _ => rfl
  rw [h1]
  simp [pieceCands, hws, h]

theorem subAllFuel_no_match (ps : List RPiece) (rep : List Char) :
    ∀ (fuel : Nat) (cs : List Char), cs.length < fuel →
      (∀ t ∈ cs.tails, matchPieces ps t = none) → subAllFuel ps rep fuel cs = cs := by
  intro fuel
  induction fuel with
  | zero =>
    intro cs hlen
    exact absurd hlen (by omega)
  | succ n ih =>
    intro cs hlen h
    cases cs with
    | nil =>
      have h0 : matchPieces ps [] = none := h [] (by simp [List.tails])
      simp [subAllFuel, h0]
    | cons c rest =>
      have h0 : matchPieces ps (c :: rest) = none :=
        h _ (by rw [List.tails_cons]; exact List.mem_cons_self _ _)
      simp only [subAllFuel, h0]
      congr 1
      refine ih rest (by simp at hlen; omega) ?_
      intro t ht
      exact h t (by rw [List.tails_cons]; exact List.mem_cons_of_mem _ ht)

theorem subAll_no_match (ps : List RPiece) (rep : List Char) (cs : List Char)
    (h : ∀ t ∈ cs.tails, matchPieces ps t = none) : subAll ps rep cs = cs :=
  subAllFuel_no_match ps rep (cs.length + 1) cs (by omega) h

theorem foldl_subAll_no_match (pats : List (List RPiece)) :
    ∀ l : List Char, (∀ p ∈ pats, ∀ t ∈ l.tails, matchPieces p t = none) →
      pats.foldl (fun acc p => subAll p [] acc) l = l := by
  induction pats with
  | nil => intro l _; rfl
  | cons p ps' ih =>
    intro l h
    have hstep : (p :: ps').foldl (fun acc q => subAll q [] acc) l
        = ps'.foldl (fun acc q => subAll q [] acc) (subAll p [] l) := rfl
    rw [hstep, subAll_no_match p [] l (h p (List.mem_cons_self _ _))]
    exact ih l (fun q hq t ht => h q (List.mem_cons_of_mem _ hq) t ht)

theorem length_dropWhile_le (p : Char → Bool) (l : List Char) :
    (l.dropWhile p).length ≤ l.length :=
  (List.dropWhile_sublist p).length_le

theorem wsCollapsed_tail (c : Char) (rest : List Char)
    (h : wsCollapsed (c :: rest) = true) : wsCollapsed rest = true := by
  cases rest with
  | nil => rfl
  | cons d t =>
    simp only [wsCollapsed, Bool.and_eq_true] at h
    exact h.2

theorem noTrailWs_of_cons (c : Char) (rest : List Char)
    (h : noTrailWs (c :: rest) = true) : noTrailWs rest = true := by
  cases rest with
  | nil => rfl
  | cons d t => exact h

theorem collapse_shape :
    ∀ (fuel : Nat) (cs : List Char), cs.length < fuel →
      wsCollapsed (subAllFuel wsPlus [' '] fuel cs) = true ∧
      (∀ c rest, cs = c :: rest → isWsChar c = false →
        ∃ out, subAllFuel wsPlus [' '] fuel cs = c :: out) := by
  intro fuel
  induction fuel with
  | zero =>
    intro cs hlen
    exact absurd hlen (by omega)
  | succ n ih =>
    intro cs hlen
    cases cs with
    | nil =>
      refine ⟨by simp [subAllFuel, matchPieces_wsPlus_nil, wsCollapsed], ?_⟩
      intro c rest hcr
      cases hcr
    | cons c rest =>
      have hrlen : rest.length < n := by simp at hlen; omega
      by_cases hws : isWsChar c = true
      · have hm := matchPieces_wsPlus_pos c rest hws
        have hdle : (rest.dropWhile isWsChar).length ≤ rest.length :=
          length_dropWhile_le isWsChar rest
        have hdlen : (rest.dropWhile isWsChar).length < rest.length + 1 := by omega
        have hstep : subAllFuel wsPlus [' '] (n + 1) (c :: rest)
            = ' ' :: subAllFuel wsPlus [' '] n (rest.dropWhile isWsChar) := by
          simp only [subAllFuel, hm, if_pos hdlen]
          rfl
        have ihd := ih (rest.dropWhile isWsChar) (by omega)
        refine ⟨?_, ?_⟩
        · rw [hstep]
          cases hout : subAllFuel wsPlus [' '] n (rest.dropWhile isWsChar) with
          | nil => decide
          | cons e out' =>
            have he : isWsChar e = false := by
              cases hd : rest.dropWhile isWsChar with
              | nil =>
                rw [hd] at hout
                have : n ≠ 0 := by omega
                obtain ⟨n', rfl⟩ := Nat.exists_eq_succ_of_ne_zero this
                rw [show subAllFuel wsPlus [' '] (n' + 1) [] = [] from by
                  simp [subAllFuel, matchPieces_wsPlus_nil]] at hout
                cases hout
              | cons e0 d' =>
                have he0 : isWsChar e0 = false := dropWhile_head_false isWsChar rest e0 d' hd
                obtain ⟨out0, hout0⟩ := ihd.2 e0 d' hd he0
                rw [hout0] at hout
                cases hout
                exact he0
            simp only [wsCollapsed, Bool.and_eq_true]
            refine ⟨by simp [he], ?_⟩
            rw [← hout]
            exact ihd.1
        · intro c' rest' hcr hc'
          cases hcr
          rw [hws] at hc'
          cases hc'
      · have hwsf : isWsChar c = false := by simpa using hws
        have hm := matchPieces_wsPlus_neg c rest hwsf
        have hstep : subAllFuel wsPlus [' '] (n + 1) (c :: rest)
            = c :: subAllFuel wsPlus [' '] n rest := by
          simp only [subAllFuel, hm]
        refine ⟨?_, ?_⟩
        · rw [hstep]
          have ihr := ih rest hrlen
          cases hout : subAllFuel wsPlus [' '] n rest with
          | nil => simp [wsCollapsed, hwsf]
          | cons e out' =>
            simp only [wsCollapsed, Bool.and_eq_true]
            refine ⟨by simp [hwsf], ?_⟩
            rw [← hout]
            exact ihr.1
        · intro c' rest' hcr hc'
          cases hcr
          exact ⟨subAllFuel wsPlus [' '] n rest, hstep⟩

theorem wsCollapsed_dropWhile (cs : List Char) (h : wsCollapsed cs = true) :
    wsCollapsed (cs.dropWhile isWsChar) = true := by
  induction cs with
  | nil => exact h
  | cons c rest ih =>
    rw [List.dropWhile_cons]
    split
    · exact ih (wsCollapsed_tail c rest h)
    · exact h

theorem dropTrailWs_head (l : List Char) (d : Char) (t : List Char)
    (h : dropTrailWs l = d :: t) : ∃ t', l = d :: t' := by
  cases l with
  | nil => cases h
  | cons c rest =>
    simp only [dropTrailWs] at h
    split at h
    · cases h
    · cases h
      exact ⟨rest, rfl⟩

theorem noTrailWs_dropTrailWs (l : List Char) : noTrailWs (dropTrailWs l) = true := by
  induction l with
  | nil => rfl
  | cons c rest ih =>
    simp only [dropTrailWs]
    split
    · rfl
    · rename_i hcond
      cases hr : dropTrailWs rest with
      | nil =>
        have hc : isWsChar c = false := by
          rw [hr] at hcond
          simpa using hcond
        simp [noTrailWs, hc]
      | cons d t =>
        show noTrailWs (d :: t) = true
        rw [← hr]
        exact ih

theorem wsCollapsed_dropTrailWs (l : List Char) (h : wsCollapsed l = true) :
    wsCollapsed (dropTrailWs l) = true := by
  induction l with
  | nil => exact h
  | cons c rest ih =>
    simp only [dropTrailWs]
    split
    · rfl
    · have hrec := ih (wsCollapsed_tail c rest h)
      cases hr : dropTrailWs rest with
      | nil =>
        cases rest with
        | nil => exact h
        | cons e t' =>
          simp only [wsCollapsed, Bool.and_eq_true] at h
          have hp := h.1
          show (!isWsChar c || c == ' ') = true
          rcases Bool.or_eq_true_iff.mp hp with h1 | h1
          · simp [h1]
          · simp only [Bool.and_eq_true] at h1
            simp [h1.1]
      | cons d t =>
        obtain ⟨t', ht'⟩ := dropTrailWs_head rest d t hr
        subst ht'
        simp only [wsCollapsed, Bool.and_eq_true] at h
        rw [hr] at hrec
        simp only [wsCollapsed, Bool.and_eq_true]
        exact ⟨h.1, hrec⟩

theorem noLeadWs_dropWhile (l : List Char) : noLeadWs (l.dropWhile isWsChar) = true := by
  cases hr : l.dropWhile isWsChar with
  | nil => rfl
  | cons d t =>
    have := dropWhile_head_false isWsChar l d t hr
    simp [noLeadWs, this]

theorem noLeadWs_dropTrailWs (l : List Char) (h : noLeadWs l = true) :
    noLeadWs (dropTrailWs l) = true := by
  cases hr : dropTrailWs l with
  | nil => rfl
  | cons d t =>
    obtain ⟨t', ht'⟩ := dropTrailWs_head l d t hr
    subst ht'
    exact h

theorem dropWhile_of_noLead (l : List Char) (h : noLeadWs l = true) :
    l.dropWhile isWsChar = l := by
  cases l with
  | nil => rfl
  | cons c rest =>
    rw [List.dropWhile_cons, if_neg]
    simp only [noLeadWs, Bool.not_eq_true'] at h
    simp [h]

theorem dropTrailWs_of_noTrail (l : List Char) (h : noTrailWs l = true) :
    dropTrailWs l = l := by
  induction l with
  | nil => rfl
  | cons c rest ih =>
    cases rest with
    | nil =>
      have hc : isWsChar c = false := by simpa [noTrailWs] using h
      simp [dropTrailWs, hc]
    | cons d t =>
      have hrest : noTrailWs (d :: t) = true := h
      have hdt := ih hrest
      have hstep : dropTrailWs (c :: d :: t)
          = if (dropTrailWs (d :: t)).isEmpty && isWsChar c then []
            else c :: dropTrailWs (d :: t) := rfl
      rw [hstep, hdt]
      simp

theorem pyStripChars_of_stripped (l : List Char) (h1 : noLeadWs l = true)
    (h2 : noTrailWs l = true) : pyStripChars l = l := by
  unfold pyStripChars
  rw [dropWhile_of_noLead l h1, dropTrailWs_of_noTrail l h2]

theorem collapse_fixed :
    ∀ (fuel : Nat) (l : List Char), l.length < fuel → wsCollapsed l = true →
      noTrailWs l = true → subAllFuel wsPlus [' '] fuel l = l := by
  intro fuel
  induction fuel with
  | zero =>
    intro l hlen
    exact absurd hlen (by omega)
  | succ n ih =>
    intro l hlen h2 h3
    cases l with
    | nil => simp [subAllFuel, matchPieces_wsPlus_nil]
    | cons c rest =>
      have hrlen : rest.length < n := by simp at hlen; omega
      by_cases hws : isWsChar c = true
      · cases rest with
        | nil => simp [noTrailWs, hws] at h3
        | cons d t =>
          simp only [wsCollapsed, Bool.and_eq_true] at h2
          have hpair := h2.1
          rw [hws] at hpair
          simp only [Bool.not_true, Bool.false_or, Bool.and_eq_true,
            Bool.not_eq_true', beq_iff_eq] at hpair
          have hm := matchPieces_wsPlus_pos c (d :: t) hws
          have hdrop : (d :: t).dropWhile isWsChar = d :: t := by
            rw [List.dropWhile_cons, if_neg (by simp [hpair.2])]
          rw [hdrop] at hm
          have hstep : subAllFuel wsPlus [' '] (n + 1) (c :: d :: t)
              = ' ' :: subAllFuel wsPlus [' '] n (d :: t) := by
            simp only [subAllFuel, hm, if_pos (by omega : (d :: t).length < (d :: t).length + 1)]
            rfl
          rw [hstep, ih (d :: t) hrlen h2.2 (noTrailWs_of_cons c (d :: t) h3), hpair.1]
      · have hwsf : isWsChar c = false := by simpa using hws
        have hm := matchPieces_wsPlus_neg c rest hwsf
        have hstep : subAllFuel wsPlus [' '] (n + 1) (c :: rest)
            = c :: subAllFuel wsPlus [' '] n rest := by
          simp only [subAllFuel, hm]
        rw [hstep,
          ih rest hrlen (wsCollapsed_tail c rest h2) (noTrailWs_of_cons c rest h3)]

theorem clean_raw_text_data (s : String) (hs : s ≠ "") :
    (clean_raw_text s).data
      = pyStripChars (subAll wsPlus [' ']
          (UNWANTED_PATTERNS.foldl (fun acc p => subAll p [] acc) s.data)) := by
  simp only [clean_raw_text, if_neg hs]

theorem clean_raw_text_shape (s : String) :
    wsCollapsed (clean_raw_text s).data = true ∧
    noLeadWs (clean_raw_text s).data = true ∧
    noTrailWs (clean_raw_text s).data = true := by
  by_cases hs : s = ""
  · subst hs
    exact ⟨rfl, rfl, rfl⟩
  · rw [clean_raw_text_data s hs]
    have hcol : wsCollapsed (subAll wsPlus [' ']
        (UNWANTED_PATTERNS.foldl (fun acc p => subAll p [] acc) s.data)) = true :=
      (collapse_shape _ _ (by omega)).1
    exact ⟨wsCollapsed_dropTrailWs _ (wsCollapsed_dropWhile _ hcol),
      noLeadWs_dropTrailWs _ (noLeadWs_dropWhile _),
      noTrailWs_dropTrailWs _⟩

/-- C7 counterexample: `clean_raw_text` is not idempotent — on
`"Learn  more"` (two spaces) no removal pattern matches, whitespace
collapsing produces `"Learn more"`, and a second application removes the
now-matching `Learn more` boilerplate pattern, yielding `""`. -/
theorem clean_raw_text_not_idempotent_cex :
    clean_raw_text "Learn  more" = "Learn more" ∧
    clean_raw_text (clean_raw_text "Learn  more") = "" ∧
    clean_raw_text (clean_raw_text "Learn  more") ≠ clean_raw_text "Learn  more" := by
  exact ⟨by decide, by decide, by decide⟩

/-- C7 amended: `cleanText` is idempotent on every input whose cleaned
form contains no occurrence of a removal pattern; it is not idempotent in
general, because collapsing whitespace (or removing a pattern) can create
a fresh pattern occurrence that only a second application removes.
The whitespace-collapse-and-trim stage by itself is always idempotent
(the cleaned text is whitespace-collapsed and stripped, and cleaning such
a text changes nothing). -/
theorem clean_raw_text_idempotent_of_no_match (s : String)
    (h : ∀ p ∈ UNWANTED_PATTERNS, ∀ t ∈ (clean_raw_text s).data.tails,
      matchPieces p t = none) :
    clean_raw_text (clean_raw_text s) = clean_raw_text s := by
  obtain ⟨hcol, hlead, htrail⟩ := clean_raw_text_shape s
  by_cases ho : clean_raw_text s = ""
  · rw [ho]
    rfl
  · have hfold : UNWANTED_PATTERNS.foldl (fun acc p => subAll p [] acc)
        (clean_raw_text s).data = (clean_raw_text s).data :=
      foldl_subAll_no_match UNWANTED_PATTERNS (clean_raw_text s).data h
    have hcollapse : subAll wsPlus [' '] (clean_raw_text s).data
        = (clean_raw_text s).data :=
      collapse_fixed _ _ (by omega) hcol htrail
    have hdata2 := clean_raw_text_data (clean_raw_text s) ho
    rw [hfold, hcollapse, pyStripChars_of_stripped _ hlead htrail] at hdata2
    exact String.ext hdata2

/-- Witness for the amended C7: `"ab"` cleans to itself and no pattern
matches it, so a second cleaning is a no-op. -/
theorem clean_raw_text_idem_witness :
    clean_raw_text (clean_raw_text "ab") = clean_raw_text "ab" :=
  clean_raw_text_idempotent_of_no_match "ab" (by decide)

end IG
